import Mathlib

/-!
Shallow embedding of the `fwt` crate (`src/lib.rs`): fast Walsh transforms in
sequency (Manz) and Hadamard (natural) orderings, a power-of-two length
validator, and an inverse-scaling helper.

Modelling conventions:
* Rust `usize` values (lengths, indices, loop counters) are `Nat`.  The only
  subtraction whose underflow matters is the loop bound `length - 2` in
  `sequency`; Rust debug builds panic on `usize` underflow (and in release the
  wrapped bound drives the inner `while` into an endless loop), so it is
  modelled as a checked subtraction that fails with `Err.subUnderflow`.  All
  other subtractions in the source are guarded (`j -= k` only under `k <= j`).
* Slice indexing `v[j]` panics when out of bounds; it is modelled with
  `List.get?`, failing with `Err.indexOOB` on the out-of-bounds branch.
* The inner bit-reversal `while k <= j { j -= k; k >>= 1 }` genuinely loops
  forever once `k = 0` (the condition `0 ≤ j` always holds and the body is then
  a no-op); that state is modelled as `Err.divergence`, which also stands for
  the `length / offset` division-by-zero panic that the corresponding
  unreachable `lag = 0` state would trigger in `hadamard`.
* `>> 1` and `<< 1` on `usize` are exactly `/ 2` and `* 2` (slice lengths are
  far below any wrap-around).
* The element type is any type with `Add` and `Sub` (the Rust bound
  `Add + Sub + Copy + AddAssign`; `AddAssign` is never used in the bodies and
  `Copy` is implicit for Lean values).
* `f64` in `scale` is modelled by `ℚ`; every concrete value the claims touch
  (thirds of multiples of three, dyadic rationals) is produced exactly by IEEE
  double division as well.  The `From<T> for f64` conversion is an explicit
  function argument `conv`.
-/

namespace Fwt

/-- Panic/divergence conditions of the embedded Rust code. -/
inductive Err where
  | subUnderflow
  | indexOOB
  | divergence
deriving DecidableEq

/-- `pub fn power_of_2(n: usize) -> bool` (src/lib.rs:131-136):
`match n { 0 => false, _ => n & (n - 1) == 0 }`. -/
def power_of_2 (n : Nat) : Bool :=
  match n with
  | 0 => false
  | _ => n &&& (n - 1) == 0

/-- Rust debug-checked `usize` subtraction: `a - b`, panicking on underflow. -/
def checkedSub (a b : Nat) : Except Err Nat :=
  if b ≤ a then Except.ok (a - b) else Except.error Err.subUnderflow

/-- The destructuring assignment `(v[j], v[k]) = f(v[j], v[k])`: both reads
panic (here: fail) when out of bounds, then the two writes land in order. -/
def pairAssign {T : Type} (v : List T) (j k : Nat) (f : T → T → T × T) :
    Except Err (List T) :=
  match v.get? j, v.get? k with
  | some a, some b => Except.ok ((v.set j (f a b).1).set k (f a b).2)
  | _, _ => Except.error Err.indexOOB

/-- `for i in start..start+cnt { s = f(i, s) }` over fallible state. -/
def foldME {σ : Type} (f : Nat → σ → Except Err σ) :
    Nat → Nat → σ → Except Err σ
  | _, 0, s => Except.ok s
  | i, cnt + 1, s => do
    let s' ← f i s
    foldME f (i + 1) cnt s'

/-- The inner bit-reversal loop of `sequency` (src/lib.rs:54-57):
`while k <= j { j -= k; k >>= 1 }`; returns the final `(j, k)`.
When `k = 0` with `k ≤ j` the Rust loop never exits. -/
def brWhile (k j : Nat) : Except Err (Nat × Nat) :=
  if k ≤ j then
    if _h : k = 0 then Except.error Err.divergence
    else brWhile (k / 2) (j - k)
  else Except.ok (j, k)
termination_by k
decreasing_by omega

/-- The conditional swap `if i < j { (v[i], v[j]) = (v[j], v[i]) }` of
`sequency` (src/lib.rs:50-52). -/
def swapIf {T : Type} (v : List T) (i j : Nat) : Except Err (List T) :=
  if i < j then pairAssign v i j (fun a b => (b, a)) else Except.ok v

/-- One iteration `i` of the bit-reversal permutation loop of `sequency`
(src/lib.rs:49-59), acting on the state `(v, j)` (`s.1` is the working
vector, `s.2` is the bit-reversed counter `j`). -/
def permStep {T : Type} (length i : Nat) (s : List T × Nat) :
    Except Err (List T × Nat) := do
  let v' ← swapIf s.1 i s.2
  let jk ← brWhile (length / 2) s.2
  Except.ok (v', jk.1 + jk.2)

/-- One full pass (fixed `offset`) of the sequency butterfly
(src/lib.rs:62-74): groups `0..length/offset`, positions `0..lag`,
with the sign pattern flipped on odd groups. -/
def seqPass {T : Type} [Add T] [Sub T] (length offset lag : Nat) (v : List T) :
    Except Err (List T) :=
  foldME (fun group v =>
    foldME (fun i v =>
      let j := i + group * offset
      let k := j + lag
      if group &&& 1 == 1 then
        pairAssign v j k (fun a b => (a - b, a + b))
      else
        pairAssign v j k (fun a b => (a + b, a - b)))
      0 lag v)
    0 (length / offset) v

/-- The outer butterfly loop of `sequency` (src/lib.rs:60-76):
`while offset > 1 { lag = offset >> 1; ...; offset = lag }`. -/
def seqButterfly {T : Type} [Add T] [Sub T] (length offset : Nat) (v : List T) :
    Except Err (List T) :=
  if offset > 1 then do
    let lag := offset / 2
    let v' ← seqPass length offset lag v
    seqButterfly length lag v'
  else Except.ok v
termination_by offset
decreasing_by omega

/-- `pub fn sequency<T>(input_v: &[T]) -> Option<Vec<T>>` (src/lib.rs:40-81). -/
def sequency {T : Type} [Add T] [Sub T] (input_v : List T) :
    Except Err (Option (List T)) :=
  let length := input_v.length
  if power_of_2 length then do
    let bound ← checkedSub length 2
    let vj ← foldME (permStep length) 0 bound (input_v, 0)
    let v ← seqButterfly length length vj.1
    Except.ok (some v)
  else
    Except.ok none

/-- One full pass (fixed `lag`, `offset = lag << 1`) of the Hadamard butterfly
(src/lib.rs:107-114): groups `0..length/offset`, positions `0..lag`, with the
uniform `(v[j]+v[k], v[j]-v[k])` combination. -/
def hadPass {T : Type} [Add T] [Sub T] (length offset lag : Nat) (v : List T) :
    Except Err (List T) :=
  foldME (fun group v =>
    foldME (fun base v =>
      let j := base + group * offset
      let k := j + lag
      pairAssign v j k (fun a b => (a + b, a - b)))
      0 lag v)
    0 (length / offset) v

/-- The Hadamard butterfly loop (src/lib.rs:104-116):
`while lag < length { offset = lag << 1; ...; lag = offset }`.
`lag = 0` (unreachable from the entry value 1) would make
`length / offset` a division by zero in Rust. -/
def hadLoop {T : Type} [Add T] [Sub T] (length lag : Nat) (v : List T) :
    Except Err (List T) :=
  if lag < length then
    if h : lag = 0 then Except.error Err.divergence
    else do
      let offset := lag * 2
      let v' ← hadPass length offset lag v
      hadLoop length offset v'
  else Except.ok v
termination_by length - lag
decreasing_by omega

/-- `pub fn hadamard<T>(input_v: &[T]) -> Option<Vec<T>>` (src/lib.rs:97-121). -/
def hadamard {T : Type} [Add T] [Sub T] (input_v : List T) :
    Except Err (Option (List T)) :=
  let length := input_v.length
  if power_of_2 length then do
    let v ← hadLoop length 1 input_v
    Except.ok (some v)
  else
    Except.ok none

/-- `pub fn scale<T>(v: &[T]) -> Option<Vec<f64>>` (src/lib.rs:152-161):
maps every element to `f64::from(x) / (length as f64)` and always returns
`Some`.  `conv` stands for the `From<T> for f64` conversion. -/
def scale {T : Type} (conv : T → ℚ) (v : List T) : Option (List ℚ) :=
  let length := v.length
  some (v.map (fun x => conv x / (length : ℚ)))

/-- Verification-layer predicate (not part of the source model): the outcome
`r` satisfies `P` when it is `ok`, and is in particular not an out-of-bounds
panic when it is an error. -/
def SafeOut {α : Type} (P : α → Prop) : Except Err α → Prop
  | Except.ok s => P s
  | Except.error e => e ≠ Err.indexOOB

/-! ## Facts about the power-of-two validator -/

theorem power_of_2_pos (n : Nat) (hn : 1 ≤ n) :
    power_of_2 n = (n &&& (n - 1) == 0) := by
  rcases n with _ | m
  · omega
  · rfl

theorem land_double (m : Nat) (hm : 1 ≤ m) :
    (2 * m) &&& (2 * m - 1) = 2 * (m &&& (m - 1)) := by
  apply Nat.eq_of_testBit_eq
  intro i
  cases i with
  | zero =>
    rw [Nat.testBit_land, Nat.testBit_zero, Nat.testBit_zero, Nat.testBit_zero]
    have h1 : 2 * m % 2 = 0 := by omega
    have h2 : 2 * (m &&& (m - 1)) % 2 = 0 := by omega
    simp [h1, h2]
  | succ i =>
    have e1 : 2 * m / 2 = m := by omega
    have e2 : (2 * m - 1) / 2 = m - 1 := by omega
    have e3 : 2 * (m &&& (m - 1)) / 2 = m &&& (m - 1) := by omega
    rw [Nat.testBit_land, Nat.testBit_succ, Nat.testBit_succ, Nat.testBit_succ,
      e1, e2, e3, ← Nat.testBit_land]

theorem land_odd (m : Nat) : (2 * m + 1) &&& (2 * m) = 2 * m := by
  apply Nat.eq_of_testBit_eq
  intro i
  cases i with
  | zero =>
    rw [Nat.testBit_land, Nat.testBit_zero, Nat.testBit_zero]
    have h1 : (2 * m + 1) % 2 = 1 := by omega
    have h2 : 2 * m % 2 = 0 := by omega
    simp [h1, h2]
  | succ i =>
    have e1 : (2 * m + 1) / 2 = m := by omega
    have e2 : 2 * m / 2 = m := by omega
    rw [Nat.testBit_land, Nat.testBit_succ, Nat.testBit_succ, e1, e2, Bool.and_self]

theorem land_pred_iff_two_pow (n : Nat) :
    1 ≤ n → (n &&& (n - 1) = 0 ↔ ∃ k, n = 2 ^ k) := by
  induction n using Nat.strong_induction_on with
  | _ n ih =>
    intro hn
    by_cases hpar : n % 2 = 0
    · obtain ⟨t, rfl⟩ : ∃ t, n = 2 * t := ⟨n / 2, by omega⟩
      have ht1 : 1 ≤ t := by omega
      have hlt : t < 2 * t := by omega
      have ihh := ih t hlt ht1
      have hpred : 2 * t - 1 + 1 = 2 * t := by omega
      rw [land_double t ht1]
      constructor
      · intro h0
        obtain ⟨k, hk⟩ := ihh.mp (by omega)
        exact ⟨k + 1, by rw [hk]; ring⟩
      · rintro ⟨k, hk⟩
        obtain ⟨k', rfl⟩ : ∃ k', k = k' + 1 := by
          rcases k with _ | k'
          · exact absurd hk (by omega)
          · exact ⟨k', rfl⟩
        have hpow : 2 ^ (k' + 1) = 2 * 2 ^ k' := by ring
        have ht : t = 2 ^ k' := by omega
        have := ihh.mpr ⟨k', ht⟩
        omega
    · obtain ⟨t, rfl⟩ : ∃ t, n = 2 * t + 1 := ⟨n / 2, by omega⟩
      have h2 : 2 * t + 1 - 1 = 2 * t := by omega
      rw [h2, land_odd]
      constructor
      · intro h0
        exact ⟨0, by omega⟩
      · rintro ⟨k, hk⟩
        rcases k with _ | k'
        · omega
        · have hpow : 2 ^ (k' + 1) = 2 * 2 ^ k' := by ring
          omega

theorem power_of_2_iff (n : Nat) : power_of_2 n = true ↔ ∃ k, n = 2 ^ k := by
  rcases Nat.eq_zero_or_pos n with rfl | hn
  · constructor
    · intro h
      simp [power_of_2] at h
    · rintro ⟨k, hk⟩
      have := Nat.pos_pow_of_pos k (show 0 < 2 by omega)
      omega
  · rw [power_of_2_pos n hn, beq_iff_eq]
    exact land_pred_iff_two_pow n hn

/-- C3: `power_of_2 n` is true iff `n = 2^k` for some `k ≥ 0`; in particular
it is false at `0`, true at `1` and `2^31`, false at `3`, `5`, `7` (more than
one set bit), and false at the largest 64-bit unsigned value `2^64 - 1`. -/
theorem power_of_2_correct :
    (∀ n : Nat, power_of_2 n = true ↔ ∃ k, n = 2 ^ k) ∧
    power_of_2 0 = false ∧ power_of_2 1 = true ∧ power_of_2 (2 ^ 31) = true ∧
    power_of_2 3 = false ∧ power_of_2 5 = false ∧ power_of_2 7 = false ∧
    power_of_2 (2 ^ 64 - 1) = false :=
  ⟨power_of_2_iff, by decide, by decide, by decide, by decide, by decide,
    by decide, by decide⟩

/-- Witness for C3: the characterization applied at the concrete input `16`. -/
theorem power_of_2_correct_witness : power_of_2 16 = true :=
  (power_of_2_correct.1 16).mpr ⟨4, by norm_num⟩

/-! ## Plumbing lemmas for the monadic embedding -/

@[simp] theorem ok_bind {α β : Type} (a : α) (f : α → Except Err β) :
    (Except.ok a >>= f) = f a := rfl

@[simp] theorem error_bind {α β : Type} (e : Err) (f : α → Except Err β) :
    ((Except.error e : Except Err α) >>= f) = Except.error e := rfl

theorem pairAssign_ok_length {T : Type} {v w : List T} {j k : Nat}
    {f : T → T → T × T} (h : pairAssign v j k f = Except.ok w) :
    w.length = v.length := by
  unfold pairAssign at h
  cases hj : v.get? j <;> cases hk : v.get? k <;> rw [hj, hk] at h <;>
    cases h <;> simp

theorem pairAssign_total {T : Type} {v : List T} {j k : Nat} (f : T → T → T × T)
    (hj : j < v.length) (hk : k < v.length) :
    ∃ w, pairAssign v j k f = Except.ok w ∧ w.length = v.length := by
  refine ⟨(v.set j (f (v.get ⟨j, hj⟩) (v.get ⟨k, hk⟩)).1).set k
      (f (v.get ⟨j, hj⟩) (v.get ⟨k, hk⟩)).2, ?_, by simp⟩
  unfold pairAssign
  rw [List.get?_eq_get hj, List.get?_eq_get hk]

theorem foldME_ok_inv {σ : Type} {P : σ → Prop} (f : Nat → σ → Except Err σ)
    (hf : ∀ i s r, f i s = Except.ok r → P s → P r) :
    ∀ start cnt (s r : σ), foldME f start cnt s = Except.ok r → P s → P r := by
  intro start cnt
  induction cnt generalizing start with
  | zero =>
    intro s r h hs
    simp only [foldME] at h
    injection h with h2
    exact h2 ▸ hs
  | succ n ih =>
    intro s r h hs
    simp only [foldME] at h
    cases hstep : f start s with
    | error e =>
      rw [hstep] at h
      simp only [error_bind] at h
      cases h
    | ok s' =>
      rw [hstep] at h
      simp only [ok_bind] at h
      exact ih (start + 1) s' r h (hf start s s' hstep hs)

theorem foldME_total {σ : Type} {P : σ → Prop} (f : Nat → σ → Except Err σ) :
    ∀ start cnt (s : σ),
      (∀ i t, start ≤ i → i < start + cnt → P t → ∃ r, f i t = Except.ok r ∧ P r) →
      P s → ∃ r, foldME f start cnt s = Except.ok r ∧ P r := by
  intro start cnt
  induction cnt generalizing start with
  | zero =>
    intro s _ hs
    exact ⟨s, by simp only [foldME], hs⟩
  | succ n ih =>
    intro s hstep hs
    obtain ⟨s', hs', hPs'⟩ := hstep start s (Nat.le_refl _) (by omega) hs
    obtain ⟨r, hr, hPr⟩ :=
      ih (start + 1) s' (fun i t hi1 hi2 => hstep i t (by omega) (by omega)) hPs'
    refine ⟨r, ?_, hPr⟩
    simp only [foldME, hs', ok_bind]
    exact hr

theorem foldME_safe {σ : Type} {P : σ → Prop} (f : Nat → σ → Except Err σ) :
    ∀ start cnt (s : σ),
      (∀ i t, start ≤ i → i < start + cnt → P t → SafeOut P (f i t)) →
      P s → SafeOut P (foldME f start cnt s) := by
  intro start cnt
  induction cnt generalizing start with
  | zero =>
    intro s _ hs
    simp only [foldME]
    exact hs
  | succ n ih =>
    intro s hstep hs
    have h1 := hstep start s (Nat.le_refl _) (by omega) hs
    simp only [foldME]
    cases hf : f start s with
    | error e =>
      rw [hf] at h1
      simp only [error_bind]
      exact h1
    | ok s' =>
      rw [hf] at h1
      simp only [ok_bind]
      exact ih (start + 1) s' (fun i t hi1 hi2 => hstep i t (by omega) (by omega)) h1

theorem brWhile_ok_bounds :
    ∀ k j j2 k2, brWhile k j = Except.ok (j2, k2) → j2 < k2 ∧ k2 ≤ k := by
  intro k
  induction k using Nat.strong_induction_on with
  | _ k ih =>
    intro j j2 k2 h
    unfold brWhile at h
    by_cases hkj : k ≤ j
    · rw [if_pos hkj] at h
      by_cases hk0 : k = 0
      · rw [dif_pos hk0] at h
        cases h
      · rw [dif_neg hk0] at h
        have := ih (k / 2) (by omega) (j - k) j2 k2 h
        omega
    · rw [if_neg hkj] at h
      simp only [Except.ok.injEq, Prod.mk.injEq] at h
      omega

theorem brWhile_no_oob : ∀ k j, brWhile k j ≠ Except.error Err.indexOOB := by
  intro k
  induction k using Nat.strong_induction_on with
  | _ k ih =>
    intro j h
    unfold brWhile at h
    by_cases hkj : k ≤ j
    · rw [if_pos hkj] at h
      by_cases hk0 : k = 0
      · rw [dif_pos hk0] at h
        injection h with h2
        cases h2
      · rw [dif_neg hk0] at h
        exact ih (k / 2) (by omega) (j - k) h
    · rw [if_neg hkj] at h
      cases h

/-! ## Invariants of the transform phases -/

theorem swapIf_ok_length {T : Type} {v w : List T} {i j : Nat}
    (h : swapIf v i j = Except.ok w) : w.length = v.length := by
  unfold swapIf at h
  by_cases hij : i < j
  · rw [if_pos hij] at h
    exact pairAssign_ok_length h
  · rw [if_neg hij] at h
    injection h with h2
    rw [h2]

theorem swapIf_total {T : Type} (v : List T) (i j : Nat)
    (hi : i < v.length) (hj : j < v.length) :
    ∃ w, swapIf v i j = Except.ok w ∧ w.length = v.length := by
  unfold swapIf
  by_cases hij : i < j
  · rw [if_pos hij]
    exact pairAssign_total _ hi hj
  · rw [if_neg hij]
    exact ⟨v, rfl, rfl⟩

theorem permStep_ok_length {T : Type} {n i : Nat} {s r : List T × Nat}
    (h : permStep n i s = Except.ok r) : r.1.length = s.1.length := by
  unfold permStep at h
  cases hsw : swapIf s.1 i s.2 with
  | error e =>
    rw [hsw] at h
    simp only [error_bind] at h
    cases h
  | ok v' =>
    rw [hsw] at h
    simp only [ok_bind] at h
    cases hbw : brWhile (n / 2) s.2 with
    | error e =>
      rw [hbw] at h
      simp only [error_bind] at h
      cases h
    | ok jk =>
      rw [hbw] at h
      simp only [ok_bind] at h
      cases h
      exact swapIf_ok_length hsw

theorem permStep_safe {T : Type} (n i : Nat) (hi : i < n) (s : List T × Nat)
    (hs : s.1.length = n ∧ s.2 < n) :
    SafeOut (fun t : List T × Nat => t.1.length = n ∧ t.2 < n) (permStep n i s) := by
  obtain ⟨hv, hj⟩ := hs
  obtain ⟨w, hw, hwl⟩ := swapIf_total s.1 i s.2 (by omega) (by omega)
  unfold permStep
  rw [hw]
  simp only [ok_bind]
  cases hbw : brWhile (n / 2) s.2 with
  | error e =>
    simp only [error_bind, SafeOut]
    intro hcontra
    rw [hcontra] at hbw
    exact brWhile_no_oob _ _ hbw
  | ok jk =>
    obtain ⟨j2, k2⟩ := jk
    have hb := brWhile_ok_bounds _ _ _ _ hbw
    simp only [ok_bind, SafeOut]
    exact ⟨by omega, by omega⟩

theorem seqPass_total {T : Type} [Add T] [Sub T] (n offset lag : Nat) (v : List T)
    (hv : v.length = n) (hlag : 2 * lag ≤ offset) :
    ∃ w, seqPass n offset lag v = Except.ok w ∧ w.length = n := by
  unfold seqPass
  apply foldME_total (P := fun u : List T => u.length = n) _ 0 (n / offset) v ?_ hv
  intro group u hg0 hglt hu
  apply foldME_total (P := fun u : List T => u.length = n) _ 0 lag u ?_ hu
  intro i t hi0 hilt ht
  have hgo : group * offset + offset ≤ n := by
    have h1 : group + 1 ≤ n / offset := by omega
    have h2 : (group + 1) * offset ≤ (n / offset) * offset :=
      Nat.mul_le_mul_right _ h1
    have h3 : (n / offset) * offset ≤ n := Nat.div_mul_le_self n offset
    have h4 : (group + 1) * offset = group * offset + offset := by ring
    omega
  have hjlt : i + group * offset < t.length := by omega
  have hklt : i + group * offset + lag < t.length := by omega
  dsimp only
  split
  · obtain ⟨w, hw, hwl⟩ := pairAssign_total (fun a b : T => (a - b, a + b)) hjlt hklt
    exact ⟨w, hw, by omega⟩
  · obtain ⟨w, hw, hwl⟩ := pairAssign_total (fun a b : T => (a + b, a - b)) hjlt hklt
    exact ⟨w, hw, by omega⟩

theorem hadPass_total {T : Type} [Add T] [Sub T] (n offset lag : Nat) (v : List T)
    (hv : v.length = n) (hlag : 2 * lag ≤ offset) :
    ∃ w, hadPass n offset lag v = Except.ok w ∧ w.length = n := by
  unfold hadPass
  apply foldME_total (P := fun u : List T => u.length = n) _ 0 (n / offset) v ?_ hv
  intro group u hg0 hglt hu
  apply foldME_total (P := fun u : List T => u.length = n) _ 0 lag u ?_ hu
  intro base t hb0 hblt ht
  have hgo : group * offset + offset ≤ n := by
    have h1 : group + 1 ≤ n / offset := by omega
    have h2 : (group + 1) * offset ≤ (n / offset) * offset :=
      Nat.mul_le_mul_right _ h1
    have h3 : (n / offset) * offset ≤ n := Nat.div_mul_le_self n offset
    have h4 : (group + 1) * offset = group * offset + offset := by ring
    omega
  have hjlt : base + group * offset < t.length := by omega
  have hklt : base + group * offset + lag < t.length := by omega
  dsimp only
  obtain ⟨w, hw, hwl⟩ := pairAssign_total (fun a b : T => (a + b, a - b)) hjlt hklt
  exact ⟨w, hw, by omega⟩

theorem seqButterfly_total {T : Type} [Add T] [Sub T] (n : Nat) :
    ∀ offset (v : List T), v.length = n →
      ∃ w, seqButterfly n offset v = Except.ok w ∧ w.length = n := by
  intro offset
  induction offset using Nat.strong_induction_on with
  | _ offset ih =>
    intro v hv
    by_cases ho : offset > 1
    · obtain ⟨w1, hw1, hl1⟩ := seqPass_total n offset (offset / 2) v hv (by omega)
      obtain ⟨w2, hw2, hl2⟩ := ih (offset / 2) (by omega) w1 hl1
      refine ⟨w2, ?_, hl2⟩
      unfold seqButterfly
      rw [if_pos ho]
      dsimp only
      rw [hw1]
      simp only [ok_bind]
      exact hw2
    · refine ⟨v, ?_, hv⟩
      unfold seqButterfly
      rw [if_neg ho]

theorem hadLoop_total {T : Type} [Add T] [Sub T] (n : Nat) :
    ∀ d lag (v : List T), n - lag ≤ d → 1 ≤ lag → v.length = n →
      ∃ w, hadLoop n lag v = Except.ok w ∧ w.length = n := by
  intro d
  induction d with
  | zero =>
    intro lag v hd hlag hv
    refine ⟨v, ?_, hv⟩
    unfold hadLoop
    rw [if_neg (by omega)]
  | succ d ih =>
    intro lag v hd hlag hv
    by_cases hlt : lag < n
    · obtain ⟨w1, hw1, hl1⟩ := hadPass_total n (lag * 2) lag v hv (by omega)
      obtain ⟨w2, hw2, hl2⟩ := ih (lag * 2) w1 (by omega) (by omega) hl1
      refine ⟨w2, ?_, hl2⟩
      unfold hadLoop
      rw [if_pos hlt, dif_neg (show ¬ lag = 0 by omega)]
      dsimp only
      rw [hw1]
      simp only [ok_bind]
      exact hw2
    · refine ⟨v, ?_, hv⟩
      unfold hadLoop
      rw [if_neg hlt]

/-! ## Branch-level characterizations of the two transforms -/

theorem sequency_power_false {T : Type} [Add T] [Sub T] (v : List T)
    (hp : power_of_2 v.length = false) : sequency v = Except.ok none := by
  simp only [sequency]
  rw [if_neg (by simp [hp])]

theorem hadamard_power_false {T : Type} [Add T] [Sub T] (v : List T)
    (hp : power_of_2 v.length = false) : hadamard v = Except.ok none := by
  simp only [hadamard]
  rw [if_neg (by simp [hp])]

theorem hadamard_power_true {T : Type} [Add T] [Sub T] (v : List T)
    (hp : power_of_2 v.length = true) :
    ∃ w, hadamard v = Except.ok (some w) ∧ w.length = v.length := by
  obtain ⟨w, hw, hl⟩ :=
    hadLoop_total (T := T) v.length v.length 1 v (by omega) (by omega) rfl
  refine ⟨w, ?_, hl⟩
  simp only [hadamard]
  rw [if_pos hp, hw]
  simp only [ok_bind]

theorem sequency_power_true_cases {T : Type} [Add T] [Sub T] (v : List T)
    (hp : power_of_2 v.length = true) :
    (∃ e, sequency v = Except.error e) ∨
    (∃ w, sequency v = Except.ok (some w) ∧ w.length = v.length) := by
  simp only [sequency]
  rw [if_pos hp]
  cases hcs : checkedSub v.length 2 with
  | error e =>
    left
    simp only [error_bind]
    exact ⟨e, rfl⟩
  | ok bound =>
    simp only [ok_bind]
    cases hfold : foldME (permStep v.length) 0 bound (v, 0) with
    | error e =>
      left
      simp only [error_bind]
      exact ⟨e, rfl⟩
    | ok vj =>
      simp only [ok_bind]
      have hvj : vj.1.length = v.length :=
        foldME_ok_inv (P := fun s : List T × Nat => s.1.length = v.length) _
          (fun i s r hr hs => (permStep_ok_length hr).trans hs) 0 bound (v, 0) vj
          hfold rfl
      obtain ⟨w, hw, hl⟩ := seqButterfly_total (T := T) v.length v.length vj.1 hvj
      right
      rw [hw]
      simp only [ok_bind]
      exact ⟨w, rfl, hl⟩

theorem sequency_safe {T : Type} [Add T] [Sub T] (v : List T)
    (hp : power_of_2 v.length = true) (h2 : 2 ≤ v.length) :
    sequency v ≠ Except.error Err.indexOOB := by
  simp only [sequency]
  rw [if_pos hp]
  have hcs : checkedSub v.length 2 = Except.ok (v.length - 2) := by
    unfold checkedSub
    rw [if_pos h2]
  rw [hcs]
  simp only [ok_bind]
  have hsafe : SafeOut (fun s : List T × Nat => s.1.length = v.length ∧ s.2 < v.length)
      (foldME (permStep v.length) 0 (v.length - 2) (v, 0)) := by
    apply foldME_safe
    · intro i t hi1 hi2 ht
      exact permStep_safe v.length i (by omega) t ht
    · exact ⟨rfl, by omega⟩
  cases hfold : foldME (permStep v.length) 0 (v.length - 2) (v, 0) with
  | error e =>
    rw [hfold] at hsafe
    simp only [error_bind]
    simp only [SafeOut] at hsafe
    intro hc
    injection hc with h3
    exact hsafe h3
  | ok vj =>
    rw [hfold] at hsafe
    simp only [ok_bind]
    simp only [SafeOut] at hsafe
    obtain ⟨w, hw, hl⟩ := seqButterfly_total (T := T) v.length v.length vj.1 hsafe.1
    rw [hw]
    simp only [ok_bind]
    intro hc
    cases hc

/-! ## The claims -/

/-- C1: the round-trip claim `scale(T(T(v))) = v` for every power-of-two
length fails on the code at the failing input `[1]` (length `1 = 2^0`):
`sequency` computes the loop bound `length - 2 = 1 - 2`, which underflows
`usize`, so the first transform already panics and no round trip happens.
For `hadamard` the round trip does behave as claimed, shown here at the
concrete power-of-two input `[1, 2, 3, 4]`: two applications give
`4 · [1, 2, 3, 4]` and `scale` recovers the input exactly. -/
theorem roundtrip_bug_at_length_one :
    sequency ([1] : List ℤ) = Except.error Err.subUnderflow ∧
    hadamard ([1, 2, 3, 4] : List ℤ) = Except.ok (some [10, -2, -4, 0]) ∧
    hadamard ([10, -2, -4, 0] : List ℤ) = Except.ok (some [4, 8, 12, 16]) ∧
    scale (fun x : ℤ => (x : ℚ)) [4, 8, 12, 16] = some [1, 2, 3, 4] := by
  refine ⟨?_, ?_, ?_, ?_⟩
  · simp +decide [sequency, checkedSub]
  · simp +decide [hadamard, hadLoop, hadPass, foldME, pairAssign]
  · simp +decide [hadamard, hadLoop, hadPass, foldME, pairAssign]
  · norm_num [scale]

/-- C2: both transforms return `None` (`InvalidLength`) exactly when the
input length is not a power of two; in particular at lengths `0` and `3`
no transformed sequence is produced. -/
theorem invalid_length_exactly_non_powers :
    (∀ v : List ℤ,
      (sequency v = Except.ok none ↔ power_of_2 v.length = false) ∧
      (hadamard v = Except.ok none ↔ power_of_2 v.length = false)) ∧
    sequency ([] : List ℤ) = Except.ok none ∧
    sequency ([1, 2, 3] : List ℤ) = Except.ok none ∧
    hadamard ([] : List ℤ) = Except.ok none ∧
    hadamard ([1, 2, 3] : List ℤ) = Except.ok none := by
  refine ⟨?_, ?_, ?_, ?_, ?_⟩
  · intro v
    constructor
    · constructor
      · intro h
        cases hp : power_of_2 v.length with
        | false => rfl
        | true =>
          rcases sequency_power_true_cases v hp with ⟨e, he⟩ | ⟨w, hw, -⟩
          · rw [he] at h
            cases h
          · rw [hw] at h
            injection h with h2
            cases h2
      · intro h
        exact sequency_power_false v h
    · constructor
      · intro h
        cases hp : power_of_2 v.length with
        | false => rfl
        | true =>
          obtain ⟨w, hw, -⟩ := hadamard_power_true v hp
          rw [hw] at h
          injection h with h2
          cases h2
      · intro h
        exact hadamard_power_false v h
  · exact sequency_power_false _ (by decide)
  · exact sequency_power_false _ (by decide)
  · exact hadamard_power_false _ (by decide)
  · exact hadamard_power_false _ (by decide)

/-- Witness for C2: the equivalence applied at the concrete non-power
length-3 input `[9, 9, 9]`. -/
theorem invalid_length_witness : sequency ([9, 9, 9] : List ℤ) = Except.ok none :=
  ((invalid_length_exactly_non_powers.1 [9, 9, 9]).1).mpr (by decide)

set_option maxHeartbeats 1600000 in
/-- C4: impulse responses at length 8.  `sequency` of the impulse at
position 0 is all `+1`, at position 6 it is `[1,-1,1,-1,-1,1,-1,1]`, at
position 7 it is `[1,-1,1,-1,1,-1,1,-1]`; `hadamard` of the impulse at
position 0 is all `+1` and at position 7 it is `[1,-1,-1,1,-1,1,1,-1]`. -/
theorem impulse_responses_length8 :
    sequency ([1, 0, 0, 0, 0, 0, 0, 0] : List ℤ) =
      Except.ok (some [1, 1, 1, 1, 1, 1, 1, 1]) ∧
    sequency ([0, 0, 0, 0, 0, 0, 1, 0] : List ℤ) =
      Except.ok (some [1, -1, 1, -1, -1, 1, -1, 1]) ∧
    sequency ([0, 0, 0, 0, 0, 0, 0, 1] : List ℤ) =
      Except.ok (some [1, -1, 1, -1, 1, -1, 1, -1]) ∧
    hadamard ([1, 0, 0, 0, 0, 0, 0, 0] : List ℤ) =
      Except.ok (some [1, 1, 1, 1, 1, 1, 1, 1]) ∧
    hadamard ([0, 0, 0, 0, 0, 0, 0, 1] : List ℤ) =
      Except.ok (some [1, -1, -1, 1, -1, 1, 1, -1]) := by
  refine ⟨?_, ?_, ?_, ?_, ?_⟩
  · simp +decide [sequency, checkedSub, foldME, permStep, swapIf, brWhile,
      seqButterfly, seqPass, pairAssign]
  · simp +decide [sequency, checkedSub, foldME, permStep, swapIf, brWhile,
      seqButterfly, seqPass, pairAssign]
  · simp +decide [sequency, checkedSub, foldME, permStep, swapIf, brWhile,
      seqButterfly, seqPass, pairAssign]
  · simp +decide [hadamard, hadLoop, hadPass, foldME, pairAssign]
  · simp +decide [hadamard, hadLoop, hadPass, foldME, pairAssign]

/-- C5: the claim that both transforms are the identity on length-1 inputs
fails for `sequency`: the loop bound `length - 2` underflows at length 1
(debug panic; in release the wrapped bound drives the inner bit-reversal
loop into `k = 0` non-termination), so `sequency` produces no result at all.
`hadamard` does return the sequence unchanged. -/
theorem length_one_underflow :
    ∀ x : ℤ, sequency [x] = Except.error Err.subUnderflow ∧
      hadamard [x] = Except.ok (some [x]) := by
  intro x
  constructor
  · simp only [sequency, List.length_singleton]
    rw [if_pos (show power_of_2 1 = true by decide)]
    have hcs : checkedSub 1 2 = Except.error Err.subUnderflow := by
      unfold checkedSub
      rw [if_neg (by omega)]
    rw [hcs]
    simp only [error_bind]
  · simp only [hadamard, List.length_singleton]
    rw [if_pos (show power_of_2 1 = true by decide)]
    have hl : hadLoop 1 1 [x] = Except.ok [x] := by
      unfold hadLoop
      rw [if_neg (by omega)]
    rw [hl]
    simp only [ok_bind]

/-- Witness for C5: the statement instantiated at the length-1 input `[7]`. -/
theorem length_one_underflow_witness :
    sequency ([7] : List ℤ) = Except.error Err.subUnderflow ∧
      hadamard ([7] : List ℤ) = Except.ok (some [7]) :=
  length_one_underflow 7

/-- C6: for every non-empty input, `scale` returns a same-length sequence
whose `i`-th element is the `i`-th input element (converted) divided by the
length; in particular `scale [3, 6, 9] = [1, 2, 3]` even though `3` is not a
power of two.  (`f64` is modelled by `ℚ`; the divisions in the concrete case
are exact in IEEE `f64` as well.) -/
theorem scale_elementwise :
    (∀ v : List ℤ, 0 < v.length →
      ∃ w, scale (fun x : ℤ => (x : ℚ)) v = some w ∧ w.length = v.length ∧
        ∀ i a, v.get? i = some a → w.get? i = some ((a : ℚ) / (v.length : ℚ))) ∧
    scale (fun x : ℤ => (x : ℚ)) [3, 6, 9] = some [1, 2, 3] := by
  constructor
  · intro v hv
    refine ⟨v.map (fun x : ℤ => (x : ℚ) / (v.length : ℚ)), by simp [scale], by simp, ?_⟩
    intro i a ha
    rw [List.get?_map, ha]
    rfl
  · norm_num [scale]

/-- Witness for C6: the elementwise description applied at `[4]`. -/
theorem scale_elementwise_witness :
    ∃ w, scale (fun x : ℤ => (x : ℚ)) [4] = some w ∧
      w.length = ([4] : List ℤ).length ∧
      ∀ i a, ([4] : List ℤ).get? i = some a →
        w.get? i = some ((a : ℚ) / (([4] : List ℤ).length : ℚ)) :=
  scale_elementwise.1 [4] (by decide)

/-- C7: `scale` has no power-of-two precondition; a failure could only occur
at length 0 (in fact it never returns `none`), and every non-empty input
succeeds. -/
theorem scale_no_precondition :
    ∀ v : List ℤ,
      (scale (fun x : ℤ => (x : ℚ)) v = none → v.length = 0) ∧
      (0 < v.length → (scale (fun x : ℤ => (x : ℚ)) v).isSome = true) := by
  intro v
  constructor
  · intro h
    simp [scale] at h
  · intro h
    simp [scale]

/-- Witness for C7: `scale` succeeds at the non-empty, non-power-of-two
length input `[3]`. -/
theorem scale_no_precondition_witness :
    (scale (fun x : ℤ => (x : ℚ)) [3]).isSome = true :=
  (scale_no_precondition [3]).2 (by decide)

/-- C8: whenever `sequency` or `hadamard` returns a transformed sequence it
has exactly the input's length, and `scale`'s output likewise has the
input's length. -/
theorem length_preservation :
    (∀ v w : List ℤ, sequency v = Except.ok (some w) → w.length = v.length) ∧
    (∀ v w : List ℤ, hadamard v = Except.ok (some w) → w.length = v.length) ∧
    (∀ (v : List ℤ) (u : List ℚ),
      scale (fun x : ℤ => (x : ℚ)) v = some u → u.length = v.length) := by
  refine ⟨?_, ?_, ?_⟩
  · intro v w h
    cases hp : power_of_2 v.length with
    | false =>
      rw [sequency_power_false v hp] at h
      injection h with h2
      cases h2
    | true =>
      rcases sequency_power_true_cases v hp with ⟨e, he⟩ | ⟨w', hw', hl⟩
      · rw [he] at h
        cases h
      · rw [hw'] at h
        injection h with h2
        injection h2 with h3
        rw [← h3]
        exact hl
  · intro v w h
    cases hp : power_of_2 v.length with
    | false =>
      rw [hadamard_power_false v hp] at h
      injection h with h2
      cases h2
    | true =>
      obtain ⟨w', hw', hl⟩ := hadamard_power_true v hp
      rw [hw'] at h
      injection h with h2
      injection h2 with h3
      rw [← h3]
      exact hl
  · intro v u h
    simp only [scale, Option.some.injEq] at h
    rw [← h]
    simp

/-- Witness for C8: length preservation applied to the concrete run
`hadamard [1, 2] = some [3, -1]`. -/
theorem length_preservation_witness :
    ([3, -1] : List ℤ).length = ([1, 2] : List ℤ).length :=
  length_preservation.2.1 [1, 2] [3, -1]
    (by simp +decide [hadamard, hadLoop, hadPass, foldME, pairAssign])

/-- C9: under the power-of-two precondition (with length at least 2 for
`sequency`), neither transform ever takes the embedded out-of-bounds
indexing branch: every read/write index of the permutation and butterfly
phases is strictly below the length. -/
theorem index_safety :
    ∀ v : List ℤ, power_of_2 v.length = true →
      (2 ≤ v.length → sequency v ≠ Except.error Err.indexOOB) ∧
      hadamard v ≠ Except.error Err.indexOOB := by
  intro v hp
  constructor
  · intro h2
    exact sequency_safe v hp h2
  · obtain ⟨w, hw, -⟩ := hadamard_power_true v hp
    rw [hw]
    intro hc
    cases hc

/-- Witness for C9: index safety at the concrete power-of-two input `[1, 2]`. -/
theorem index_safety_witness :
    sequency ([1, 2] : List ℤ) ≠ Except.error Err.indexOOB ∧
      hadamard ([1, 2] : List ℤ) ≠ Except.error Err.indexOOB :=
  ⟨(index_safety [1, 2] (by decide)).1 (by decide),
    (index_safety [1, 2] (by decide)).2⟩

/-- C10: `scale` never returns `None`; on the empty input it returns
`Some []` — the map over an empty sequence performs no division, so no
non-finite value is produced. -/
theorem scale_total_empty :
    (∀ v : List ℤ, (scale (fun x : ℤ => (x : ℚ)) v).isSome = true) ∧
    scale (fun x : ℤ => (x : ℚ)) ([] : List ℤ) = some [] := by
  constructor
  · intro v
    simp [scale]
  · rfl

/-- Witness for C10: totality of `scale` applied at `[7]`. -/
theorem scale_total_empty_witness :
    (scale (fun x : ℤ => (x : ℚ)) [7]).isSome = true :=
  scale_total_empty.1 [7]

end Fwt
